import Mathlib

/-!
Verification of the indexing/retrieval core of the discord_knowledge_bot
repository, as a shallow embedding in Lean 4.

Python strings are modelled as `List Char` (a Python `str` is a sequence of
code points); `str.split()`, `str.strip()` and truthiness are embedded as
executable functions below.  Python dicts with string keys are modelled as
association lists, Python ints as `Int`/`Nat`, and `float` similarity scores
as `Option ℚ` (absent = `None`); the claims settled here depend only on
equalities, truthiness, and the affine map `1 - score`, all of which are
exact in ℚ.
-/

/-! ## Python string primitives (src/utils/helpers.py semantics) -/

/-- ASCII whitespace recognised by Python `str.split()` / `str.strip()`. -/
def isPySpace (c : Char) : Bool :=
  c == ' ' || c == '\t' || c == '\n' || c == '\r' ||
    c == Char.ofNat 11 || c == Char.ofNat 12

/-- Accumulator-style scanner implementing Python `str.split()` with no
separator: split on runs of whitespace, discarding empty pieces.  The
accumulator holds the current word reversed. -/
def splitWordsAux : List Char → List Char → List (List Char)
  | [], acc => if acc = [] then [] else [acc.reverse]
  | c :: rest, acc =>
    if isPySpace c then
      if acc = [] then splitWordsAux rest []
      else acc.reverse :: splitWordsAux rest []
    else splitWordsAux rest (c :: acc)

/-- Python `text.split()` (no argument): whitespace-delimited words. -/
def splitWords (l : List Char) : List (List Char) :=
  splitWordsAux l []

/-- Python `" ".join(ws)`-style joining used to reason about chunks. -/
def joinWords : List (List Char) → List Char
  | [] => []
  | [w] => w
  | w :: ws => w ++ ' ' :: joinWords ws

/-- Python `str.strip()`: drop leading and trailing whitespace. -/
def pyStrip (l : List Char) : List Char :=
  ((l.dropWhile isPySpace).reverse.dropWhile isPySpace).reverse

/-- Python `str.strip()` lifted to `String`. -/
def pyStripS (s : String) : String :=
  String.mk (pyStrip s.data)

/-- Whitespace normalisation used by the spec's round-trip property:
collapse whitespace runs and trim the ends (equivalently, split into words
and rejoin with single spaces). -/
def normalizeWs (l : List Char) : List Char :=
  joinWords (splitWords l)

/-! ## chunk_text (src/utils/helpers.py lines 30-49)

The loop body of `chunk_text`: state is `(chunks, current_chunk)`;
`if len(current_chunk) + len(word) + 1 <= chunk_size: current_chunk += word + " "`
`else: if current_chunk: chunks.append(current_chunk.strip()); current_chunk = word + " "`.
-/

def chunkStep (chunkSize : Nat) (st : List (List Char) × List Char)
    (word : List Char) : List (List Char) × List Char :=
  if st.2.length + word.length + 1 ≤ chunkSize then
    (st.1, st.2 ++ word ++ [' '])
  else
    ((if st.2 = [] then st.1 else st.1 ++ [pyStrip st.2]), word ++ [' '])

/-- `chunk_text` over character lists: early return `[text]` when
`len(text) <= chunk_size`, else the greedy word-packing loop followed by the
final `if current_chunk: chunks.append(current_chunk.strip())`. -/
def chunkListOf (l : List Char) (chunkSize : Nat) : List (List Char) :=
  if l.length ≤ chunkSize then [l]
  else
    let st := (splitWords l).foldl (chunkStep chunkSize) ([], [])
    if st.2 = [] then st.1 else st.1 ++ [pyStrip st.2]

/-- `chunk_text(text, chunk_size)` from src/utils/helpers.py. -/
def chunk_text (text : String) (chunkSize : Nat) : List String :=
  (chunkListOf text.data chunkSize).map (fun cs => String.mk cs)

/-! ## Metadata values and the ChromaStorage search path
(src/indexing/storage.py lines 114-170)

Metadata values are Python ints or strings; `str(v)` is `MVal.pyStr`. -/

inductive MVal where
  | int (i : Int)
  | str (s : String)
deriving DecidableEq, Repr

/-- Python `str()` applied to a metadata value. -/
def MVal.pyStr : MVal → String
  | .int i => toString i
  | .str s => s

/-- A node returned by the LlamaIndex retriever: text, metadata dict,
optional similarity score. -/
structure RetNode where
  text : String
  metadata : List (String × MVal)
  score : Option ℚ
deriving DecidableEq, Repr

/-- A formatted search result (storage.py lines 160-168). -/
structure SearchResult where
  document : String
  metadata : List (String × MVal)
  distance : ℚ
  score : Option ℚ
deriving DecidableEq, Repr

/-- The per-node filter check of `ChromaStorage.search` (lines 128-136 and
148-156): every `(key, value)` in `filter_metadata` must have `key` present
in the node metadata with `str(metadata[key]) == str(value)`. -/
def matchesFilter (filt : List (String × MVal)) (md : List (String × MVal)) : Bool :=
  filt.all (fun kv =>
    match md.lookup kv.1 with
    | none => false
    | some v => v.pyStr == kv.2.pyStr)

/-- Python truthiness of `node.score` (None and 0.0 are falsy). -/
def scoreTruthy : Option ℚ → Bool
  | none => false
  | some q => q != 0

/-- Result formatting (storage.py lines 162-168):
`'distance': 1 - node.score if node.score else 0`. -/
def formatNode (nd : RetNode) : SearchResult :=
  { document := nd.text
    metadata := nd.metadata
    distance := if scoreTruthy nd.score then 1 - nd.score.getD 0 else 0
    score := nd.score }

/-- The node-selection part of `ChromaStorage.search`.  `retrieve k` models
`self.index.as_retriever(similarity_top_k=k).retrieve(query)` for the fixed
query.  The widen loop's `break` when `len(filtered_nodes) >= n_results` is
folded into the accumulator test, which is equivalent because the
accumulator only grows. -/
def searchNodesPost (retrieve : Nat → List RetNode) (nResults : Nat)
    (filt : Option (List (String × MVal))) : List RetNode :=
  let nodes := retrieve nResults
  match filt with
  | none => nodes
  | some fm =>
    let filtered := nodes.filter (fun nd => matchesFilter fm nd.metadata)
    if filtered.length < nResults ∧ nodes.length > nResults then
      (retrieve (min (nResults * 3) 50)).foldl
        (fun acc nd =>
          if acc.length ≥ nResults then acc
          else if matchesFilter fm nd.metadata = true ∧ nd ∉ acc then acc ++ [nd]
          else acc)
        filtered
    else filtered

/-- `ChromaStorage.search(query, n_results, filter_metadata)`:
retrieve, post-filter (with the widen-and-retry branch), format. -/
def search (retrieve : Nat → List RetNode) (nResults : Nat)
    (filt : Option (List (String × MVal))) : List SearchResult :=
  (searchNodesPost retrieve nResults filt).map formatNode

/-- The top-k retriever over a fixed backend ranking: `retrieve k` returns
the k highest-scoring nodes. -/
def rankedRetrieve (ranked : List RetNode) (k : Nat) : List RetNode :=
  ranked.take k

/-! ## ChromaStorage.add_documents (storage.py lines 89-112) -/

/-- A LlamaIndex `Document` as constructed by `add_documents`:
`metadata=metadatas[i] if i < len(metadatas) else {}`,
`doc_id=ids[i] if i < len(ids) else None`. -/
structure LlamaDoc where
  text : String
  metadata : List (String × MVal)
  docId : Option String
deriving DecidableEq, Repr

/-- `ChromaStorage.add_documents(documents, metadatas, ids)`: the list of
Document objects inserted into the index (one per element of `documents`). -/
def add_documents (documents : List String)
    (metadatas : List (List (String × MVal))) (ids : List String) :
    List LlamaDoc :=
  documents.enum.map (fun p =>
    { text := p.2
      metadata := metadatas.getD p.1 []
      docId := ids.get? p.1 })

/-! ## MessageCollector (src/indexing/collector.py lines 24-66)

A collected message carries the fields `_index_server` reads.  Discord ids
are ints; `created_at.isoformat()` is an opaque string. -/

structure Msg where
  guild_id : Int
  guild_name : String
  channel_id : Int
  channel_name : String
  id : Int
  author_id : Int
  author_name : String
  timestamp : String
  content : String
deriving DecidableEq, Repr

/-- Python truthiness of the `limit` argument (`if limit:`): `None` and `0`
are falsy. -/
def pyTruthy : Option Nat → Bool
  | none => false
  | some n => n != 0

/-- The `while True` loop of `collect_channel_messages`.  The channel is
modelled by its full most-recent-first history `hist`; a fetch with cursor
`before=last_message` returns the next `fetch_limit` messages after the
`messages.length` already collected (`channel.history` returns at most the
requested limit).  `fuel` bounds the iteration count; `hist.length + 1` is
always enough because every non-final iteration collects at least one
message. -/
def collectLoop (maxPerReq : Nat) (hist : List Msg) (limit : Option Nat) :
    Nat → List Msg → List Msg
  | 0, messages => messages
  | fuel + 1, messages =>
    let fetchLimit :=
      if pyTruthy limit then min maxPerReq (limit.getD 0 - messages.length)
      else maxPerReq
    if pyTruthy limit ∧ messages.length ≥ limit.getD 0 then messages
    else
      let page := (hist.drop messages.length).take fetchLimit
      if page = [] then messages
      else collectLoop maxPerReq hist limit fuel (messages ++ page)

/-- `MessageCollector.collect_channel_messages(channel, limit)`. -/
def collect_channel_messages (maxPerReq : Nat) (hist : List Msg)
    (limit : Option Nat) : List Msg :=
  collectLoop maxPerReq hist limit (hist.length + 1) []

/-- `MessageCollector.filter_text_messages`: keep messages whose content is
truthy and truthy after `strip()`. -/
def filter_text_messages (msgs : List Msg) : List Msg :=
  msgs.filter (fun m => m.content != "" && pyStripS m.content != "")

/-! ## DiscordKnowledgeBot._index_server document construction
(src/bot/main.py lines 175-218) -/

/-- A record handed to `storage.add_documents` by the indexing loop. -/
structure StoredDoc where
  text : String
  metadata : List (String × MVal)
  docId : String
deriving DecidableEq, Repr

/-- The per-message document built at src/bot/main.py lines 186-203:
raw `message.content` as text and
`doc_id = f"{message.guild.id}_{message.channel.id}_{message.id}"`. -/
def indexDocOf (m : Msg) : StoredDoc :=
  { text := m.content
    metadata :=
      [("guild_id", MVal.int m.guild_id),
       ("guild_name", MVal.str m.guild_name),
       ("channel_id", MVal.int m.channel_id),
       ("channel_name", MVal.str m.channel_name),
       ("message_id", MVal.int m.id),
       ("author_id", MVal.int m.author_id),
       ("author_name", MVal.str m.author_name),
       ("timestamp", MVal.str m.timestamp),
       ("content", MVal.str m.content)]
    docId := toString m.guild_id ++ "_" ++ toString m.channel_id ++ "_"
      ++ toString m.id }

/-- All records persisted by `_index_server` over one indexing job: the
batch loop of 50 only groups `add_documents` calls, so the persisted
concatenation is the map of `indexDocOf` over the text-filtered messages
(every `Msg` has the attributes checked by `validate_object`). -/
def index_server_documents (msgs : List Msg) : List StoredDoc :=
  (filter_text_messages msgs).map indexDocOf

/-! ## Indexing coordinator state (src/bot/main.py lines 129-160) -/

/-- `self.indexing_progress` contents ({} is `none`). -/
structure Progress where
  status : String
  processed : Nat
  total : Nat
deriving DecidableEq, Repr

/-- The bot's mutable indexing state: the `is_indexing` flag and the
progress dict. -/
structure BotState where
  is_indexing : Bool
  indexing_progress : Option Progress
deriving DecidableEq, Repr

/-- Modelled from the spec: `isIndexingInProgress()` is absent from
src/bot/main.py (only the tests call it); per the spec it reports the
in-progress flag. -/
def is_indexing_in_progress (s : BotState) : Bool :=
  s.is_indexing

/-- Modelled from the spec: `getIndexingProgress()` is absent from
src/bot/main.py; per the spec it returns the progress mapping (empty when
idle). -/
def get_indexing_progress (s : BotState) : Option Progress :=
  s.indexing_progress

/-- `DiscordKnowledgeBot.start_indexing` as a state transformer.  `body`
models lines 138-153 (guild lookup, channel branch, `_index_server` /
`_index_channel`): it may update the state and either return a
`(success, message)` result or raise with a cause string.  The `finally`
block clears the flag and resets progress on every exit path. -/
def start_indexing (s : BotState)
    (body : BotState → BotState × Except String (Bool × String)) :
    BotState × (Bool × String) :=
  if s.is_indexing then (s, (false, "Indexing already in progress"))
  else
    let s1 : BotState :=
      { is_indexing := true
        indexing_progress := some ⟨"Starting...", 0, 0⟩ }
    let br := body s1
    let result :=
      match br.2 with
      | .ok res => res
      | .error e => (false, "Indexing failed: " ++ e)
    ({ br.1 with is_indexing := false, indexing_progress := none }, result)

/-! ## Interleaving model for concurrent start_indexing calls

The guard-and-set prefix (lines 131-135) contains no `await`, so under
the single event loop it is one atomic step; likewise the `finally`
block.  `running` counts calls currently inside the `try`/`finally`. -/

structure Sys where
  bot : BotState
  running : Nat
deriving DecidableEq, Repr

inductive Ev where
  | startAccept
  | startReject (result : Bool × String)
  | bodyProgress (p : Progress)
  | finish (result : Bool × String)

/-- One atomic step of the system.  `startAccept` is the un-contended
guard-and-set prefix; `startReject` is the immediate early return on
contention (no lock wait, no state change); `bodyProgress` is a progress
update from the running job's body; `finish` is the `finally` block plus
the return. -/
inductive Step : Sys → Ev → Sys → Prop where
  | accept {s : Sys} :
      s.bot.is_indexing = false →
      Step s .startAccept
        ⟨⟨true, some ⟨"Starting...", 0, 0⟩⟩, s.running + 1⟩
  | reject {s : Sys} :
      s.bot.is_indexing = true →
      Step s (.startReject (false, "Indexing already in progress")) s
  | progress {s : Sys} (p : Progress) :
      0 < s.running →
      Step s (.bodyProgress p) ⟨⟨s.bot.is_indexing, some p⟩, s.running⟩
  | finish {s : Sys} (r : Bool × String) :
      0 < s.running →
      Step s (.finish r) ⟨⟨false, none⟩, s.running - 1⟩

/-- States reachable from the freshly constructed bot
(`is_indexing = False`, `indexing_progress = {}`). -/
inductive Reach : Sys → Prop where
  | init : Reach ⟨⟨false, none⟩, 0⟩
  | step {s s' : Sys} {e : Ev} : Reach s → Step s e s' → Reach s'

/-! ## ContextBuilder.search_relevant_content
(src/chat/context_builder.py lines 19-29) -/

/-- `ContextBuilder.search_relevant_content(query, n_results, channel_id)`:
when `channel_id` is truthy, search with
`filter_metadata={"channel_id": str(channel_id)}`, else unfiltered. -/
def search_relevant_content (retrieve : Nat → List RetNode) (nResults : Nat)
    (channelId : Option Int) : List SearchResult :=
  match channelId with
  | some cid =>
    if cid ≠ 0 then
      search retrieve nResults (some [("channel_id", MVal.str (toString cid))])
    else search retrieve nResults none
  | none => search retrieve nResults none

/-! ## Predicates used to reason about chunk_text -/

/-- A word produced by `str.split()`: nonempty and whitespace-free. -/
def GoodWord (w : List Char) : Prop :=
  w ≠ [] ∧ ∀ c ∈ w, isPySpace c = false

/-- All members are split-words. -/
def GoodWords (ws : List (List Char)) : Prop :=
  ∀ w ∈ ws, GoodWord w

/-- Loop invariant of the `chunk_text` fold after processing the words
`done`: the accumulated chunks are the space-joins of nonempty consecutive
word blocks, the current chunk is a space-join plus one trailing space, the
blocks and the current words together are exactly `done`; when every
processed word fits in `chunkSize` every closed chunk and the current join
fit in `chunkSize`; and — unconditionally — any closed chunk or current
join holding two or more words fits in `chunkSize`, because a second word
is only ever added under the fits check. -/
def ChunkInv (chunkSize : Nat) (done : List (List Char))
    (st : List (List Char) × List Char) : Prop :=
  ∃ (blocks : List (List (List Char))) (cur : List (List Char)),
    st.1 = blocks.map joinWords ∧
    (∀ b ∈ blocks, b ≠ []) ∧
    st.2 = (if cur = [] then [] else joinWords cur ++ [' ']) ∧
    blocks.flatten ++ cur = done ∧
    ((∀ w ∈ done, w.length ≤ chunkSize) →
      (∀ b ∈ blocks, (joinWords b).length ≤ chunkSize) ∧
      (cur ≠ [] → (joinWords cur).length ≤ chunkSize)) ∧
    (∀ b ∈ blocks, 2 ≤ b.length → (joinWords b).length ≤ chunkSize) ∧
    (2 ≤ cur.length → (joinWords cur).length + 1 ≤ chunkSize)

/-! ## Helper lemmas -/

/-- With a filter present and a first retrieval of at most `nResults`
candidates, the widen-and-retry guard `len(nodes) > n_results` is false and
the result is the plain post-filter of the first retrieval. -/
theorem searchNodesPost_of_le (retrieve : Nat → List RetNode) (nResults : Nat)
    (fm : List (String × MVal)) (h : (retrieve nResults).length ≤ nResults) :
    searchNodesPost retrieve nResults (some fm) =
      (retrieve nResults).filter (fun nd => matchesFilter fm nd.metadata) := by
  unfold searchNodesPost
  exact if_neg (fun hc => absurd hc.2 (not_lt.2 h))

/-- Characterisation of the metadata post-filter predicate. -/
theorem matchesFilter_iff (fm md : List (String × MVal)) :
    matchesFilter fm md = true ↔
      ∀ kv ∈ fm, ∃ v, md.lookup kv.1 = some v ∧ MVal.pyStr v = MVal.pyStr kv.2 := by
  unfold matchesFilter
  rw [List.all_eq_true]
  constructor
  · intro h kv hkv
    have := h kv hkv
    cases hl : md.lookup kv.1 with
    | none => rw [hl] at this; exact absurd this (by simp)
    | some v => rw [hl] at this; exact ⟨v, rfl, by simpa using this⟩
  · intro h kv hkv
    obtain ⟨v, hv, hs⟩ := h kv hkv
    rw [hv]
    simpa using hs

/-! ## Claims C1, C4, C8, C9 (ChromaStorage) -/

/-- C1: with backend ranking [A(channel 1), B(channel 2), C(channel 2)],
filter {channel_id: "2"} and n_results = 2, two matching documents are
retrievable within the widened cap of 50, yet `search` returns only one
match: the first retrieval yields at most `n_results` candidates, so the
widen guard `len(filtered_nodes) < n_results and len(nodes) > n_results`
never fires and no re-query happens, contradicting the stated
widen-and-retry behaviour. -/
theorem claim_C1_widen_never_fires :
    ((rankedRetrieve
        [⟨"A", [("channel_id", MVal.int 1)], none⟩,
         ⟨"B", [("channel_id", MVal.int 2)], none⟩,
         ⟨"C", [("channel_id", MVal.int 2)], none⟩] 50).filter
      (fun nd => matchesFilter [("channel_id", MVal.str "2")] nd.metadata)).length = 2 ∧
    (search
      (rankedRetrieve
        [⟨"A", [("channel_id", MVal.int 1)], none⟩,
         ⟨"B", [("channel_id", MVal.int 2)], none⟩,
         ⟨"C", [("channel_id", MVal.int 2)], none⟩])
      2 (some [("channel_id", MVal.str "2")])).length = 1 := by
  constructor <;> rfl

/-- C4 (counterexample): calling `add_documents` with texts of length 2 and
empty metadatas/ids does not fail with any error — it inserts two Document
records, padding metadata with `{}` and doc ids with `None`; no
`ArgumentMismatchError` exists anywhere in the code. -/
theorem claim_C4_counterexample :
    add_documents ["a", "b"] [] [] =
      [⟨"a", [], none⟩, ⟨"b", [], none⟩] := by
  rfl

/-- C4 (amended): `add_documents(texts, metadatas, ids)` never fails on a
length mismatch; it always inserts exactly `len(texts)` records, the i-th
carrying `texts[i]`, `metadatas[i]` if present else `{}`, and `ids[i]` if
present else `None`. -/
theorem claim_C4_amended (texts : List String)
    (ms : List (List (String × MVal))) (ids : List String) :
    (add_documents texts ms ids).length = texts.length ∧
    ∀ i, (add_documents texts ms ids).get? i =
      (texts.get? i).map (fun t => ⟨t, ms.getD i [], ids.get? i⟩) := by
  constructor
  · simp [add_documents]
  · intro i
    simp only [add_documents, List.get?_eq_getElem?, List.getElem?_map,
      List.getElem?_enum]
    cases texts[i]? <;> rfl

/-- C8 (counterexample): a backend score of 0 lies in [0,1], but the
returned distance is 0, not 1 - 0 = 1: the Python conditional
`1 - node.score if node.score else 0` treats score 0.0 as falsy. -/
theorem claim_C8_counterexample :
    search (rankedRetrieve [⟨"d", [], some 0⟩]) 1 none =
      [⟨"d", [], 0, some 0⟩] ∧
    (0 : ℚ) ∈ Set.Icc (0 : ℚ) 1 ∧ (0 : ℚ) ≠ 1 - 0 := by
  refine ⟨rfl, by norm_num, by norm_num⟩

/-- C8 (amended): for every result of `search`, the distance is
`1 - score` whenever the score is present and nonzero (in particular for
score in (0,1]), and 0 when the score is absent or 0. -/
theorem claim_C8_amended (retrieve : Nat → List RetNode) (n : Nat)
    (filt : Option (List (String × MVal))) (r : SearchResult)
    (hr : r ∈ search retrieve n filt) :
    (∀ q : ℚ, r.score = some q → q ≠ 0 → r.distance = 1 - q) ∧
    ((r.score = none ∨ r.score = some 0) → r.distance = 0) := by
  obtain ⟨nd, -, rfl⟩ := List.mem_map.1 hr
  constructor
  · intro q hq hq0
    simp only [formatNode] at hq ⊢
    rw [hq]
    simp [scoreTruthy, hq0]
  · intro h
    simp only [formatNode] at h ⊢
    rcases h with h | h <;> simp [scoreTruthy, h]

/-- C8 amended-claim witness: a stored score of 1/2 yields distance 1/2. -/
theorem claim_C8_amended_witness :
    (⟨"d", [], 1 - (1 : ℚ)/2, some ((1 : ℚ)/2)⟩ : SearchResult).distance =
      1 - (1 : ℚ)/2 :=
  (claim_C8_amended (rankedRetrieve [⟨"d", [], some ((1 : ℚ)/2)⟩]) 1 none _
    (by simp [search, searchNodesPost, rankedRetrieve, formatNode,
          scoreTruthy])).1
    ((1 : ℚ)/2) rfl (by norm_num)

/-- C9: the post-filter keeps a candidate iff every (key, value) pair of
the filter has the key present with `str(metadata[key]) == str(value)`;
with at most `n_results` first-pass candidates, `search` returns exactly
the filter-surviving candidates in order; an integer metadata value matches
the string filter value with the same digits, and channel-scoped retrieval
builds its filter as `{"channel_id": str(channel_id)}`. -/
theorem claim_C9_post_filter (retrieve : Nat → List RetNode) (n : Nat)
    (fm md : List (String × MVal)) (cid : Int)
    (hRet : (retrieve n).length ≤ n) (hcid : cid ≠ 0) :
    (matchesFilter fm md = true ↔
      ∀ kv ∈ fm, ∃ v, md.lookup kv.1 = some v ∧
        MVal.pyStr v = MVal.pyStr kv.2) ∧
    search retrieve n (some fm) =
      ((retrieve n).filter (fun nd => matchesFilter fm nd.metadata)).map
        formatNode ∧
    matchesFilter [("channel_id", MVal.str (toString cid))]
      [("channel_id", MVal.int cid)] = true ∧
    search_relevant_content retrieve n (some cid) =
      search retrieve n (some [("channel_id", MVal.str (toString cid))]) := by
  refine ⟨matchesFilter_iff fm md, ?_, ?_, ?_⟩
  · unfold search
    rw [searchNodesPost_of_le retrieve n fm hRet]
  · simp [matchesFilter, List.lookup, MVal.pyStr]
  · simp [search_relevant_content, hcid]

/-- C9 witness: a record whose channel_id was stored as the integer 42
matches the str-built filter for channel 42. -/
theorem claim_C9_post_filter_witness :
    matchesFilter [("channel_id", MVal.str (toString (42 : Int)))]
      [("channel_id", MVal.int 42)] = true :=
  (claim_C9_post_filter (fun _ => []) 1 [] [] 42 (by simp) (by norm_num)).2.2.1

/-! ## Claims C2, C3 (indexing coordinator) -/

/-- Reachability invariant: the running-job count never exceeds one and
matches the `is_indexing` flag. -/
theorem reach_invariant {s : Sys} (h : Reach s) :
    s.running ≤ 1 ∧ (s.running = 1 ↔ s.bot.is_indexing = true) := by
  induction h with
  | init => simp
  | @step t t' e hr hstep ih =>
    cases hstep with
    | accept hflag =>
      have h1 : t.running ≠ 1 := by
        intro h1
        rw [ih.2.1 h1] at hflag
        simp at hflag
      have hle := ih.1
      have h0 : t.running = 0 := by omega
      simp [h0]
    | reject _ => exact ih
    | progress p hrun => exact ih
    | finish r hrun =>
      have h1 : t.running = 1 := le_antisymm ih.1 hrun
      simp [h1]

/-- C2: in every reachable system state at most one indexing job is
running, and a `start_indexing` call that hits the contention guard is a
single atomic step that returns `(false, "Indexing already in progress")`
and leaves the whole state (flag and progress) unchanged — it never waits:
the guard-and-reject prefix (src/bot/main.py lines 131-132) contains no
await and no lock acquisition. -/
theorem claim_C2_at_most_one_job (s s' : Sys) (r : Bool × String)
    (hs : Reach s) :
    s.running ≤ 1 ∧
    (Step s (.startReject r) s' →
      r = (false, "Indexing already in progress") ∧ s' = s) := by
  refine ⟨(reach_invariant hs).1, fun hstep => ?_⟩
  cases hstep with
  | reject _ => exact ⟨rfl, rfl⟩

/-- C2 witness: the state reached after one accepted start has exactly one
running job, and a rejected concurrent start leaves it unchanged. -/
theorem claim_C2_at_most_one_job_witness :
    (⟨⟨true, some ⟨"Starting...", 0, 0⟩⟩, 1⟩ : Sys).running ≤ 1 ∧
    ((⟨⟨true, some ⟨"Starting...", 0, 0⟩⟩, 1⟩ : Sys) =
      (⟨⟨true, some ⟨"Starting...", 0, 0⟩⟩, 1⟩ : Sys)) := by
  have h := claim_C2_at_most_one_job
    ⟨⟨true, some ⟨"Starting...", 0, 0⟩⟩, 1⟩
    ⟨⟨true, some ⟨"Starting...", 0, 0⟩⟩, 1⟩
    (false, "Indexing already in progress")
    (Reach.step Reach.init (Step.accept rfl))
  exact ⟨h.1, (h.2 (Step.reject rfl)).2⟩

/-- C3: if the body (collection/processing/storage) raises with some cause,
`start_indexing` returns `(false, "Indexing failed: <cause>")`, and in the
state it leaves behind — on this and every other exit path — the
in-progress flag is false and the progress mapping is empty, because the
`finally` block runs on every path. -/
theorem claim_C3_failure_releases_lock (s : BotState)
    (body : BotState → BotState × Except String (Bool × String))
    (cause : String)
    (h1 : s.is_indexing = false)
    (h2 : ∀ st, (body st).2 = Except.error cause) :
    start_indexing s body =
      ({ is_indexing := false, indexing_progress := none },
        (false, "Indexing failed: " ++ cause)) ∧
    ∀ body', is_indexing_in_progress (start_indexing s body').1 = false ∧
      get_indexing_progress (start_indexing s body').1 = none := by
  constructor
  · simp [start_indexing, h1, h2]
  · intro body'
    constructor <;>
      simp [start_indexing, h1, is_indexing_in_progress,
        get_indexing_progress]

/-- C3 witness: a body that raises "boom" from the idle state. -/
theorem claim_C3_failure_releases_lock_witness :
    start_indexing ⟨false, none⟩
        (fun st => (st, Except.error "boom")) =
      ({ is_indexing := false, indexing_progress := none },
        (false, "Indexing failed: " ++ "boom")) :=
  (claim_C3_failure_releases_lock ⟨false, none⟩ _ "boom" rfl
    (fun _ => rfl)).1

/-! ## Claim C5 (_index_server persists raw content) -/

/-- C5 (counterexample): the record persisted for message id 3 in guild 1,
channel 2 has doc id "1_2_3", which is not of the form
"{message_id}_chunk_{i}" for any chunk index i. -/
theorem claim_C5_counterexample :
    (index_server_documents [⟨1, "g", 2, "c", 3, 4, "alice", "t", "hello"⟩]).map
        StoredDoc.docId = ["1_2_3"] ∧
    ¬ ∃ i : Nat, "1_2_3" = "3" ++ "_chunk_" ++ toString i := by
  refine ⟨rfl, ?_⟩
  rintro ⟨i, h⟩
  have hlen := congrArg String.length h
  have h5 : ("1_2_3" : String).length = 5 := rfl
  have h1 : ("3" : String).length = 1 := rfl
  have h7 : ("_chunk_" : String).length = 7 := rfl
  rw [String.length_append, String.length_append, h5, h1, h7] at hlen
  omega

/-- C5 (amended): every record persisted by `_index_server` carries the raw
(uncleaned, unchunked) `message.content` of some collected message with
nonempty content, under doc id
`{guild_id}_{channel_id}_{message_id}`; the DocumentProcessor clean/chunk
step is never applied on this path. -/
theorem claim_C5_amended (msgs : List Msg) (d : StoredDoc)
    (hd : d ∈ index_server_documents msgs) :
    ∃ m ∈ msgs, m.content ≠ "" ∧ d.text = m.content ∧
      d.docId = toString m.guild_id ++ "_" ++ toString m.channel_id ++ "_"
        ++ toString m.id := by
  obtain ⟨m, hm, rfl⟩ := List.mem_map.1 hd
  obtain ⟨hmem, hcond⟩ := List.mem_filter.1 hm
  refine ⟨m, hmem, ?_, rfl, rfl⟩
  intro hc
  simp [hc] at hcond

/-- C5 amended-claim witness. -/
theorem claim_C5_amended_witness :
    ∃ m ∈ [(⟨1, "g", 2, "c", 3, 4, "alice", "t", "hello"⟩ : Msg)],
      m.content ≠ "" ∧
      (indexDocOf ⟨1, "g", 2, "c", 3, 4, "alice", "t", "hello"⟩).text =
        m.content ∧
      (indexDocOf ⟨1, "g", 2, "c", 3, 4, "alice", "t", "hello"⟩).docId =
        toString m.guild_id ++ "_" ++ toString m.channel_id ++ "_"
          ++ toString m.id :=
  claim_C5_amended [⟨1, "g", 2, "c", 3, 4, "alice", "t", "hello"⟩] _
    (by simp [index_server_documents, filter_text_messages, pyStripS,
      pyStrip, isPySpace])

/-! ## Claim C10 (collector limit handling) -/

/-- `limit=0` drives the loop exactly like `limit=None`: both are falsy,
so the fetch-limit computation and the termination check ignore them. -/
theorem collectLoop_zero_eq_none (maxPerReq : Nat) (hist : List Msg) :
    ∀ fuel ms, collectLoop maxPerReq hist (some 0) fuel ms =
      collectLoop maxPerReq hist none fuel ms := by
  intro fuel
  induction fuel with
  | zero => intro ms; rfl
  | succ f ih =>
    intro ms
    simp only [collectLoop, pyTruthy]
    simp only [bne_self_eq_false, Bool.false_eq_true, false_and, if_false]
    split
    · rfl
    · exact ih _

/-- Taking as many elements as a previous `take` produced reproduces that
`take`. -/
theorem take_length_take {α : Type _} (l : List α) (n : Nat) :
    l.take (l.take n).length = l.take n := by
  induction l generalizing n with
  | nil => simp
  | cons a t ih =>
    cases n with
    | zero => simp
    | succ k => simp [List.take_succ_cons, ih]

/-- Unfolding lemma for one loop iteration with `limit=None`. -/
theorem collectLoop_succ_none (maxPerReq : Nat) (hist : List Msg)
    (f : Nat) (ms : List Msg) :
    collectLoop maxPerReq hist none (f + 1) ms =
      if (hist.drop ms.length).take maxPerReq = [] then ms
      else collectLoop maxPerReq hist none f
        (ms ++ (hist.drop ms.length).take maxPerReq) := by
  simp [collectLoop, pyTruthy]

/-- Unfolding lemma for one loop iteration with a truthy limit. -/
theorem collectLoop_succ_some (maxPerReq : Nat) (hist : List Msg)
    (l : Nat) (hl : l ≠ 0) (f : Nat) (ms : List Msg) :
    collectLoop maxPerReq hist (some l) (f + 1) ms =
      if l ≤ ms.length then ms
      else if (hist.drop ms.length).take (min maxPerReq (l - ms.length)) = []
        then ms
      else collectLoop maxPerReq hist (some l) f
        (ms ++ (hist.drop ms.length).take (min maxPerReq (l - ms.length))) := by
  have hb : pyTruthy (some l) = true := by simp [pyTruthy, hl]
  simp [collectLoop, hb, ge_iff_le]

/-- With a positive page size and no (truthy) limit, the loop drains the
whole history: it stops only on an empty page. -/
theorem collectLoop_none_all (maxPerReq : Nat) (hist : List Msg)
    (hm : 0 < maxPerReq) :
    ∀ fuel ms, ms = hist.take ms.length →
      hist.length - ms.length < fuel →
      collectLoop maxPerReq hist none fuel ms = hist := by
  intro fuel
  induction fuel with
  | zero => intro ms _ hf; omega
  | succ f ih =>
    intro ms hpre hf
    rw [collectLoop_succ_none]
    by_cases hle : hist.length ≤ ms.length
    · have hdrop : hist.drop ms.length = [] := List.drop_eq_nil_of_le hle
      rw [hdrop, List.take_nil, if_pos rfl, hpre,
        List.take_of_length_le hle]
    · push_neg at hle
      have hdl : 0 < (hist.drop ms.length).length := by
        rw [List.length_drop]; omega
      have hpage : (hist.drop ms.length).take maxPerReq ≠ [] := by
        intro hp
        have := congrArg List.length hp
        rw [List.length_take] at this
        simp at this
        omega
      rw [if_neg hpage]
      have hplen : ((hist.drop ms.length).take maxPerReq).length =
          min maxPerReq (hist.drop ms.length).length := List.length_take _ _
      have hppos : 0 < ((hist.drop ms.length).take maxPerReq).length := by
        rw [hplen]; omega
      apply ih
      · rw [List.length_append, List.take_add, ← hpre]
        congr 1
        exact (take_length_take _ _).symm
      · rw [List.length_append]
        omega

/-- With a positive limit the collected list never exceeds the limit:
the pre-fetch break and the `min(max_per_request, remaining)` fetch size
keep the count bounded. -/
theorem collectLoop_limit_le (maxPerReq : Nat) (hist : List Msg) (l : Nat)
    (hl : 0 < l) :
    ∀ fuel ms, ms.length ≤ l →
      (collectLoop maxPerReq hist (some l) fuel ms).length ≤ l := by
  intro fuel
  induction fuel with
  | zero => intro ms h; exact h
  | succ f ih =>
    intro ms hms
    rw [collectLoop_succ_some maxPerReq hist l (by omega)]
    by_cases hge : l ≤ ms.length
    · rw [if_pos hge]; exact hms
    · rw [if_neg hge]
      push_neg at hge
      split
      · exact hms
      · apply ih
        rw [List.length_append]
        have hpl : ((hist.drop ms.length).take
            (min maxPerReq (l - ms.length))).length ≤
            min maxPerReq (l - ms.length) := by
          rw [List.length_take]; omega
        omega

/-- C10: `collect_channel_messages` applies its limit logic only when the
limit is truthy.  A call with `limit=0` behaves identically to
`limit=None` — with a positive page size it collects the entire history,
stopping only on an empty page, rather than returning zero items — and for
every positive limit the result has at most `limit` messages. -/
theorem claim_C10_limit_truthiness (maxPerReq : Nat) (hist : List Msg)
    (l : Nat) (hm : 0 < maxPerReq) (hl : 0 < l) :
    collect_channel_messages maxPerReq hist (some 0) =
      collect_channel_messages maxPerReq hist none ∧
    collect_channel_messages maxPerReq hist (some 0) = hist ∧
    (collect_channel_messages maxPerReq hist (some l)).length ≤ l := by
  have hnone : collect_channel_messages maxPerReq hist none = hist := by
    unfold collect_channel_messages
    exact collectLoop_none_all maxPerReq hist hm _ [] rfl (by simp)
  refine ⟨?_, ?_, ?_⟩
  · unfold collect_channel_messages
    exact collectLoop_zero_eq_none maxPerReq hist _ []
  · unfold collect_channel_messages
    rw [collectLoop_zero_eq_none maxPerReq hist _ []]
    exact hnone
  · unfold collect_channel_messages
    exact collectLoop_limit_le maxPerReq hist l hl _ [] (by simp)

/-- C10 witness: a three-message history with page size 2 and limit 0 is
collected in full; with limit 2 at most two messages are returned. -/
theorem claim_C10_limit_truthiness_witness :
    collect_channel_messages 2
        [⟨1, "g", 2, "c", 3, 4, "a", "t", "x"⟩,
         ⟨1, "g", 2, "c", 5, 4, "a", "t", "y"⟩,
         ⟨1, "g", 2, "c", 6, 4, "a", "t", "z"⟩] (some 0) =
      [⟨1, "g", 2, "c", 3, 4, "a", "t", "x"⟩,
       ⟨1, "g", 2, "c", 5, 4, "a", "t", "y"⟩,
       ⟨1, "g", 2, "c", 6, 4, "a", "t", "z"⟩] :=
  (claim_C10_limit_truthiness 2 _ 2 (by norm_num) (by norm_num)).2.1

/-! ## splitWords / joinWords / pyStrip lemmas -/

/-- Every word produced by the split scanner is nonempty and
whitespace-free. -/
theorem splitWordsAux_good :
    ∀ (l acc : List Char), (∀ c ∈ acc, isPySpace c = false) →
      ∀ w ∈ splitWordsAux l acc, GoodWord w := by
  intro l
  induction l with
  | nil =>
    intro acc hacc w hw
    unfold splitWordsAux at hw
    by_cases ha : acc = []
    · simp [ha] at hw
    · rw [if_neg ha] at hw
      simp only [List.mem_singleton] at hw
      subst hw
      refine ⟨by simpa using ha, ?_⟩
      intro c hc
      exact hacc c (List.mem_reverse.1 hc)
  | cons c rest ih =>
    intro acc hacc w hw
    unfold splitWordsAux at hw
    by_cases hc : isPySpace c = true
    · rw [if_pos hc] at hw
      by_cases ha : acc = []
      · rw [if_pos ha] at hw
        exact ih [] (by simp) w hw
      · rw [if_neg ha] at hw
        rcases List.mem_cons.1 hw with hw | hw
        · subst hw
          refine ⟨by simpa using ha, ?_⟩
          intro x hx
          exact hacc x (List.mem_reverse.1 hx)
        · exact ih [] (by simp) w hw
    · rw [if_neg hc] at hw
      refine ih (c :: acc) ?_ w hw
      intro x hx
      rcases List.mem_cons.1 hx with hx | hx
      · subst hx; simpa using hc
      · exact hacc x hx

/-- `splitWords` yields nonempty whitespace-free words. -/
theorem splitWords_good (l : List Char) : GoodWords (splitWords l) :=
  fun w hw => splitWordsAux_good l [] (by simp) w hw

/-- Scanning through a whitespace separator flushes the accumulator and
restarts: splitting distributes over a separator. -/
theorem splitWordsAux_append_sep (b : List Char) (sep : Char)
    (hsep : isPySpace sep = true) :
    ∀ (a acc : List Char),
      splitWordsAux (a ++ sep :: b) acc =
        splitWordsAux a acc ++ splitWords b := by
  intro a
  induction a with
  | nil =>
    intro acc
    by_cases ha : acc = [] <;>
      simp [splitWordsAux, hsep, ha, splitWords]
  | cons c a' ih =>
    intro acc
    simp only [List.cons_append]
    unfold splitWordsAux
    by_cases hc : isPySpace c = true
    · rw [if_pos hc, if_pos hc]
      by_cases ha : acc = []
      · rw [if_pos ha, if_pos ha]
        exact ih []
      · rw [if_neg ha, if_neg ha, ih []]
        rfl
    · rw [if_neg hc, if_neg hc]
      exact ih (c :: acc)

/-- Splitting distributes over a single whitespace separator. -/
theorem splitWords_append_sep (a b : List Char) (sep : Char)
    (hsep : isPySpace sep = true) :
    splitWords (a ++ sep :: b) = splitWords a ++ splitWords b :=
  splitWordsAux_append_sep b sep hsep a []

/-- Scanning a whitespace-free suffix just extends the accumulator. -/
theorem splitWordsAux_no_space (w : List Char)
    (hnw : ∀ c ∈ w, isPySpace c = false) :
    ∀ acc, splitWordsAux w acc =
      if acc.reverse ++ w = [] then [] else [acc.reverse ++ w] := by
  induction w with
  | nil =>
    intro acc
    simp [splitWordsAux]
  | cons c w' ih =>
    intro acc
    have hc : isPySpace c = false := hnw c (List.mem_cons_self _ _)
    unfold splitWordsAux
    rw [if_neg (by simp [hc])]
    rw [ih (fun x hx => hnw x (List.mem_cons_of_mem _ hx)) (c :: acc)]
    simp

/-- A single split-word splits to itself. -/
theorem splitWords_single (w : List Char) (hw : GoodWord w) :
    splitWords w = [w] := by
  unfold splitWords
  rw [splitWordsAux_no_space w hw.2 []]
  simp [hw.1]

/-- `joinWords` over a cons with nonempty tail. -/
theorem joinWords_cons (w : List Char) (ws : List (List Char))
    (h : ws ≠ []) : joinWords (w :: ws) = w ++ ' ' :: joinWords ws := by
  cases ws with
  | nil => exact absurd rfl h
  | cons a t => rfl

/-- Splitting a space-join of split-words recovers the words. -/
theorem splitWords_joinWords (ws : List (List Char)) (h : GoodWords ws) :
    splitWords (joinWords ws) = ws := by
  induction ws with
  | nil => rfl
  | cons w ws' ih =>
    cases ws' with
    | nil =>
      show splitWords (joinWords [w]) = [w]
      exact splitWords_single w (h w (List.mem_cons_self _ _))
    | cons w2 ws'' =>
      rw [joinWords_cons w _ (by simp),
        splitWords_append_sep w (joinWords (w2 :: ws'')) ' ' rfl,
        splitWords_single w (h w (List.mem_cons_self _ _)),
        ih (fun x hx => h x (List.mem_cons_of_mem _ hx))]
      rfl

/-- `joinWords` over an append of nonempty lists inserts one space. -/
theorem joinWords_append (xs ys : List (List Char)) (hx : xs ≠ [])
    (hy : ys ≠ []) :
    joinWords (xs ++ ys) = joinWords xs ++ ' ' :: joinWords ys := by
  induction xs with
  | nil => exact absurd rfl hx
  | cons x xs' ih =>
    cases xs' with
    | nil =>
      obtain ⟨y, ys', rfl⟩ := List.exists_cons_of_ne_nil hy
      rfl
    | cons x2 xs'' =>
      rw [List.cons_append,
        joinWords_cons x _ (by simp),
        joinWords_cons x (x2 :: xs'') (by simp),
        ih (by simp)]
      simp

/-- A space-join of split-words starts with a non-whitespace character. -/
theorem joinWords_head (ws : List (List Char)) (hws : GoodWords ws)
    (hne : ws ≠ []) :
    ∃ c t, joinWords ws = c :: t ∧ isPySpace c = false := by
  cases ws with
  | nil => exact absurd rfl hne
  | cons w ws' =>
    have hw : GoodWord w := hws w (List.mem_cons_self _ _)
    obtain ⟨c, w'', rfl⟩ := List.exists_cons_of_ne_nil hw.1
    have hc := hw.2 c (List.mem_cons_self _ _)
    cases ws' with
    | nil => exact ⟨c, w'', rfl, hc⟩
    | cons w2 ws'' =>
      refine ⟨c, w'' ++ ' ' :: joinWords (w2 :: ws''), ?_, hc⟩
      rw [joinWords_cons _ _ (by simp)]
      rfl

/-- A space-join of split-words ends with a non-whitespace character. -/
theorem joinWords_last (ws : List (List Char)) (hws : GoodWords ws)
    (hne : ws ≠ []) :
    ∃ c t, (joinWords ws).reverse = c :: t ∧ isPySpace c = false := by
  induction ws with
  | nil => exact absurd rfl hne
  | cons w ws' ih =>
    cases ws' with
    | nil =>
      have hw : GoodWord w := hws w (List.mem_cons_self _ _)
      have hrev : w.reverse ≠ [] := by simpa using hw.1
      obtain ⟨c, t, hct⟩ := List.exists_cons_of_ne_nil hrev
      refine ⟨c, t, hct, hw.2 c ?_⟩
      rw [← List.mem_reverse, hct]
      exact List.mem_cons_self _ _
    | cons w2 ws'' =>
      obtain ⟨c, t, hct, hc⟩ :=
        ih (fun x hx => hws x (List.mem_cons_of_mem _ hx)) (by simp)
      refine ⟨c, t ++ ' ' :: w.reverse, ?_, hc⟩
      rw [joinWords_cons _ _ (by simp), List.reverse_append,
        List.reverse_cons, hct]
      simp

/-- Stripping a closed current chunk (a space-join plus trailing space)
removes exactly the trailing space. -/
theorem pyStrip_joinWords_space (ws : List (List Char)) (hws : GoodWords ws)
    (hne : ws ≠ []) :
    pyStrip (joinWords ws ++ [' ']) = joinWords ws := by
  obtain ⟨c0, t0, hj, hc0⟩ := joinWords_head ws hws hne
  obtain ⟨c1, t1, hjr, hc1⟩ := joinWords_last ws hws hne
  unfold pyStrip
  have h1 : (joinWords ws ++ [' ']).dropWhile isPySpace =
      joinWords ws ++ [' '] := by
    rw [hj, List.cons_append, List.dropWhile_cons, if_neg (by simp [hc0])]
  rw [h1, List.reverse_append]
  have h2 : (([' '] : List Char).reverse ++ (joinWords ws).reverse) =
      ' ' :: (joinWords ws).reverse := by simp
  rw [h2, List.dropWhile_cons, if_pos (by rfl), hjr, List.dropWhile_cons,
    if_neg (by simp [hc1]), ← hjr, List.reverse_reverse]

/-- Joining the per-block joins equals joining the flattened blocks when
every block is nonempty. -/
theorem joinWords_map_join (blocks : List (List (List Char)))
    (h : ∀ b ∈ blocks, b ≠ []) :
    joinWords (blocks.map joinWords) = joinWords blocks.flatten := by
  induction blocks with
  | nil => rfl
  | cons b bs ih =>
    cases bs with
    | nil => simp [joinWords]
    | cons b2 bs' =>
      have hb : b ≠ [] := h b (List.mem_cons_self _ _)
      have hb2 : b2 ≠ [] := h b2 (List.mem_cons_of_mem _ (List.mem_cons_self _ _))
      have hflat : (b2 :: bs').flatten ≠ [] := by
        simp only [List.flatten_cons]
        intro hcontra
        exact hb2 (List.append_eq_nil.1 hcontra).1
      rw [List.map_cons, joinWords_cons _ _ (by simp),
        ih (fun x hx => h x (List.mem_cons_of_mem _ hx))]
      simp only [List.flatten_cons]
      rw [joinWords_append b _ hb
        (fun hcontra => hb2 (List.append_eq_nil.1 hcontra).1)]

/-- One step of the `chunk_text` loop preserves the chunk invariant. -/
theorem chunkStep_inv (C : Nat) (done : List (List Char))
    (st : List (List Char) × List Char) (w : List Char)
    (hgd : GoodWords done) (hinv : ChunkInv C done st) :
    ChunkInv C (done ++ [w]) (chunkStep C st w) := by
  obtain ⟨blocks, cur, h1, h2, h3, h4, h5, h6, h7⟩ := hinv
  have hcur_good : GoodWords cur := by
    intro x hx
    exact hgd x (h4 ▸ List.mem_append_right _ hx)
  unfold chunkStep ChunkInv
  by_cases hcond : st.2.length + w.length + 1 ≤ C
  · rw [if_pos hcond]
    refine ⟨blocks, cur ++ [w], h1, h2, ?_, ?_, ?_, h6, ?_⟩
    · rw [if_neg (by simp)]
      by_cases hc : cur = []
      · subst hc
        rw [h3]
        simp [joinWords]
      · rw [h3, if_neg hc, joinWords_append cur [w] hc (by simp)]
        simp [joinWords]
    · rw [← List.append_assoc, h4]
    · intro hb
      have hb' : ∀ x ∈ done, x.length ≤ C :=
        fun x hx => hb x (List.mem_append_left _ hx)
      have hwb : w.length ≤ C :=
        hb w (List.mem_append_right _ (List.mem_singleton.2 rfl))
      have h5' := h5 hb'
      refine ⟨h5'.1, fun _ => ?_⟩
      by_cases hc : cur = []
      · subst hc
        have hst2 : st.2 = [] := by rw [h3]; simp
        rw [hst2] at hcond
        simp only [List.nil_append]
        show (joinWords [w]).length ≤ C
        simp only [joinWords]
        simp at hcond
        omega
      · have hst2 : st.2.length = (joinWords cur).length + 1 := by
          rw [h3, if_neg hc]
          simp
        rw [joinWords_append cur [w] hc (by simp)]
        simp only [joinWords, List.length_append, List.length_cons]
        omega
    · intro h2w
      by_cases hc : cur = []
      · subst hc
        simp at h2w
      · have hst2 : st.2.length = (joinWords cur).length + 1 := by
          rw [h3, if_neg hc]
          simp
        rw [joinWords_append cur [w] hc (by simp)]
        simp only [joinWords, List.length_append, List.length_cons]
        omega
  · rw [if_neg hcond]
    by_cases hc : cur = []
    · subst hc
      have hst2 : st.2 = [] := by rw [h3]; simp
      rw [if_pos hst2]
      refine ⟨blocks, [w], h1, h2, ?_, ?_, ?_, h6, ?_⟩
      · rw [if_neg (by simp)]
        simp [joinWords]
      · rw [← h4]
        simp
      · intro hb
        have hb' : ∀ x ∈ done, x.length ≤ C :=
          fun x hx => hb x (List.mem_append_left _ hx)
        refine ⟨(h5 hb').1, fun _ => ?_⟩
        show (joinWords [w]).length ≤ C
        simp only [joinWords]
        exact hb w (List.mem_append_right _ (List.mem_singleton.2 rfl))
      · intro h2w
        simp at h2w
    · have hst2ne : st.2 ≠ [] := by
        rw [h3, if_neg hc]
        simp
      rw [if_neg hst2ne]
      refine ⟨blocks ++ [cur], [w], ?_, ?_, ?_, ?_, ?_, ?_, ?_⟩
      · rw [h1, h3, if_neg hc, pyStrip_joinWords_space cur hcur_good hc,
          List.map_append]
        rfl
      · intro b hb
        rcases List.mem_append.1 hb with hb | hb
        · exact h2 b hb
        · rw [List.mem_singleton.1 hb]
          exact hc
      · rw [if_neg (by simp)]
        simp [joinWords]
      · rw [List.flatten_append, ← h4]
        simp
      · intro hb
        have hb' : ∀ x ∈ done, x.length ≤ C :=
          fun x hx => hb x (List.mem_append_left _ hx)
        have h5' := h5 hb'
        refine ⟨?_, fun _ => ?_⟩
        · intro b hbm
          rcases List.mem_append.1 hbm with hbm | hbm
          · exact h5'.1 b hbm
          · rw [List.mem_singleton.1 hbm]
            exact h5'.2 hc
        · show (joinWords [w]).length ≤ C
          simp only [joinWords]
          exact hb w (List.mem_append_right _ (List.mem_singleton.2 rfl))
      · intro b hbm
        rcases List.mem_append.1 hbm with hbm | hbm
        · exact h6 b hbm
        · rw [List.mem_singleton.1 hbm]
          intro h2w
          have := h7 h2w
          omega
      · intro h2w
        simp at h2w

/-- Folding the `chunk_text` loop over a word list preserves the
invariant. -/
theorem foldl_chunkStep_inv (C : Nat) :
    ∀ (ws done : List (List Char)) (st : List (List Char) × List Char),
      GoodWords (done ++ ws) → ChunkInv C done st →
      ChunkInv C (done ++ ws) (ws.foldl (chunkStep C) st) := by
  intro ws
  induction ws with
  | nil =>
    intro done st h hinv
    simpa using hinv
  | cons w ws' ih =>
    intro done st h hinv
    have hre : done ++ w :: ws' = (done ++ [w]) ++ ws' := by simp
    rw [hre, List.foldl_cons]
    refine ih (done ++ [w]) (chunkStep C st w) (by rw [← hre]; exact h) ?_
    refine chunkStep_inv C done st w ?_ hinv
    intro x hx
    exact h x (List.mem_append_left _ hx)

/-- The chunks produced past the early-return case are space-joins of
nonempty consecutive blocks of the split words; the blocks partition the
split words in order; when every word fits in the chunk size so does every
chunk; and every block of two or more words fits in the chunk size
unconditionally. -/
theorem chunkListOf_partition (l : List Char) (C : Nat)
    (hlen : C < l.length) :
    ∃ blocks : List (List (List Char)),
      chunkListOf l C = blocks.map joinWords ∧
      (∀ b ∈ blocks, b ≠ []) ∧
      blocks.flatten = splitWords l ∧
      ((∀ w ∈ splitWords l, w.length ≤ C) →
        ∀ b ∈ blocks, (joinWords b).length ≤ C) ∧
      (∀ b ∈ blocks, 2 ≤ b.length → (joinWords b).length ≤ C) := by
  have hgood := splitWords_good l
  have hinv0 : ChunkInv C [] ([], []) :=
    ⟨[], [], rfl, by simp, rfl, rfl, by simp, by simp, by simp⟩
  have hinv := foldl_chunkStep_inv C (splitWords l) [] ([], [])
    (by simpa using hgood) hinv0
  rw [List.nil_append] at hinv
  obtain ⟨blocks, cur, h1, h2, h3, h4, h5, h6, h7⟩ := hinv
  have hcur_good : GoodWords cur := by
    intro x hx
    exact hgood x (h4 ▸ List.mem_append_right _ hx)
  unfold chunkListOf
  rw [if_neg (by omega)]
  by_cases hc : cur = []
  · subst hc
    have hst2 : ((splitWords l).foldl (chunkStep C) ([], [])).2 = [] := by
      rw [h3]
      simp
    refine ⟨blocks, ?_, h2, by simpa using h4, fun hb => (h5 hb).1, h6⟩
    simp only [hst2, if_pos rfl]
    exact h1
  · have hst2ne : ((splitWords l).foldl (chunkStep C) ([], [])).2 ≠ [] := by
      rw [h3, if_neg hc]
      simp
    refine ⟨blocks ++ [cur], ?_, ?_, ?_, ?_, ?_⟩
    · simp only [if_neg hst2ne]
      rw [h1, h3, if_neg hc, pyStrip_joinWords_space cur hcur_good hc,
        List.map_append]
      rfl
    · intro b hb
      rcases List.mem_append.1 hb with hb | hb
      · exact h2 b hb
      · rw [List.mem_singleton.1 hb]
        exact hc
    · rw [List.flatten_append, ← h4]
      simp
    · intro hb b hbm
      have h5' := h5 hb
      rcases List.mem_append.1 hbm with hbm | hbm
      · exact h5'.1 b hbm
      · rw [List.mem_singleton.1 hbm]
        exact h5'.2 hc
    · intro b hbm
      rcases List.mem_append.1 hbm with hbm | hbm
      · exact h6 b hbm
      · rw [List.mem_singleton.1 hbm]
        intro h2w
        have := h7 h2w
        omega

/-! ## Claims C6, C7 (chunk_text) -/

/-- C6: for every text and positive chunk size, joining the chunks of
`chunk_text` with single spaces and normalising whitespace reproduces the
whitespace-normalised input, and no produced chunk is the empty string
unless the input is empty. -/
theorem claim_C6_chunk_round_trip (T : String) (C : Nat) (hC : 0 < C) :
    normalizeWs (joinWords ((chunk_text T C).map String.data)) =
      normalizeWs T.data ∧
    ∀ c ∈ chunk_text T C, c = "" → T = "" := by
  by_cases hlen : T.data.length ≤ C
  · have hchunk : chunk_text T C = [T] := by
      unfold chunk_text chunkListOf
      rw [if_pos hlen]
      rfl
    rw [hchunk]
    refine ⟨rfl, ?_⟩
    intro c hc hce
    rw [List.mem_singleton.1 hc] at hce
    exact hce
  · push_neg at hlen
    obtain ⟨blocks, hchunks, hne, hflat, hbound⟩ :=
      chunkListOf_partition T.data C hlen
    have hmap : (chunk_text T C).map String.data = blocks.map joinWords := by
      unfold chunk_text
      rw [hchunks, List.map_map]
      simp
    have hblocks_good : ∀ b ∈ blocks, GoodWords b := by
      intro b hb x hx
      have hxf : x ∈ blocks.flatten := List.mem_flatten.2 ⟨b, hb, hx⟩
      rw [hflat] at hxf
      exact splitWords_good T.data x hxf
    refine ⟨?_, ?_⟩
    · rw [hmap, joinWords_map_join blocks hne, hflat]
      unfold normalizeWs
      rw [splitWords_joinWords _ (splitWords_good T.data)]
    · intro c hc hce
      unfold chunk_text at hc
      rw [hchunks] at hc
      obtain ⟨j, hj, rfl⟩ := List.mem_map.1 hc
      obtain ⟨b, hb, rfl⟩ := List.mem_map.1 hj
      obtain ⟨c0, t0, hjw, -⟩ :=
        joinWords_head b (hblocks_good b hb) (hne b hb)
      have hdata : joinWords b = [] := congrArg String.data hce
      rw [hjw] at hdata
      exact absurd hdata (by simp)

/-- C6 witness: round trip at T = "a  b", C = 1. -/
theorem claim_C6_chunk_round_trip_witness :
    normalizeWs (joinWords ((chunk_text "a  b" 1).map String.data)) =
      normalizeWs ("a  b" : String).data :=
  (claim_C6_chunk_round_trip "a  b" 1 (by norm_num)).1

/-- C7 (counterexample): with chunk_size 4, the text "aaaaaaa bb" (length
10) produces the chunk "aaaaaaa" of length 7 > 4: a single word longer
than the chunk size becomes an oversized chunk, so "no produced chunk
exceeds C characters" fails. -/
theorem claim_C7_counterexample :
    chunk_text "aaaaaaa bb" 4 = ["aaaaaaa", "bb"] ∧
    ∃ c ∈ chunk_text "aaaaaaa bb" 4, 4 < c.length := by
  refine ⟨by decide, ⟨"aaaaaaa", by decide, by decide⟩⟩

/-- C7 (amended): for every text and positive chunk size, `chunk_text`
returns the single chunk `[T]` when `len(T) <= C` and never splits a word
across chunks — the chunks' word lists concatenate to the input's word
list, and any produced chunk longer than C characters is exactly one
whitespace-delimited word of the input (a single word longer than C
becomes its own oversized chunk); provided every word of the input has at
most C characters, no produced chunk exceeds C characters. -/
theorem claim_C7_no_word_split (T : String) (C : Nat) (hC : 0 < C) :
    (T.length ≤ C → chunk_text T C = [T]) ∧
    ((chunk_text T C).map (fun c => splitWords c.data)).flatten =
      splitWords T.data ∧
    ((∀ w ∈ splitWords T.data, w.length ≤ C) →
      ∀ c ∈ chunk_text T C, c.length ≤ C) ∧
    ∀ c ∈ chunk_text T C, C < c.length →
      ∃ w ∈ splitWords T.data, c.data = w := by
  have hTlen : T.length = T.data.length := rfl
  by_cases hlen : T.data.length ≤ C
  · have hchunk : chunk_text T C = [T] := by
      unfold chunk_text chunkListOf
      rw [if_pos hlen]
      rfl
    refine ⟨fun _ => hchunk, ?_, ?_, ?_⟩
    · rw [hchunk]
      simp
    · intro _ c hc
      rw [hchunk, List.mem_singleton] at hc
      subst hc
      omega
    · intro c hc hclen
      rw [hchunk, List.mem_singleton] at hc
      subst hc
      omega
  · push_neg at hlen
    obtain ⟨blocks, hchunks, hne, hflat, hbound, hsingle⟩ :=
      chunkListOf_partition T.data C hlen
    have hblocks_good : ∀ b ∈ blocks, GoodWords b := by
      intro b hb x hx
      have hxf : x ∈ blocks.flatten := List.mem_flatten.2 ⟨b, hb, hx⟩
      rw [hflat] at hxf
      exact splitWords_good T.data x hxf
    refine ⟨fun h => absurd h (by omega), ?_, ?_, ?_⟩
    · unfold chunk_text
      rw [hchunks, List.map_map, List.map_map]
      have hcongr :
          blocks.map
              (((fun (c : String) => splitWords c.data) ∘
                fun cs => String.mk cs) ∘ joinWords) =
            blocks.map (fun b => b) :=
        List.map_congr_left
          (fun b hb => splitWords_joinWords b (hblocks_good b hb))
      rw [hcongr]
      simpa using hflat
    · intro hwords c hc
      unfold chunk_text at hc
      rw [hchunks] at hc
      obtain ⟨j, hj, rfl⟩ := List.mem_map.1 hc
      obtain ⟨b, hb, rfl⟩ := List.mem_map.1 hj
      show (joinWords b).length ≤ C
      exact hbound hwords b hb
    · intro c hc hclen
      unfold chunk_text at hc
      rw [hchunks] at hc
      obtain ⟨j, hj, rfl⟩ := List.mem_map.1 hc
      obtain ⟨b, hb, rfl⟩ := List.mem_map.1 hj
      have hjb : C < (joinWords b).length := hclen
      have hble : b.length ≤ 1 := by
        by_contra hgt
        push_neg at hgt
        have := hsingle b hb (by omega)
        omega
      obtain ⟨w0, t0, rfl⟩ := List.exists_cons_of_ne_nil (hne _ hb)
      have ht0 : t0 = [] := by
        have h0 : t0.length = 0 := by
          simp only [List.length_cons] at hble
          omega
        exact List.length_eq_zero.1 h0
      subst ht0
      refine ⟨w0, ?_, rfl⟩
      rw [← hflat]
      exact List.mem_flatten.2 ⟨[w0], hb, List.mem_singleton.2 rfl⟩

/-- C7 amended-claim witness: in the spec's own scenario
chunk_text("a b c d e", 4) the produced chunk "a b" is within the bound,
and in chunk_text("aaaaaaa bb", 4) the oversized chunk "aaaaaaa" is a
single word of the input. -/
theorem claim_C7_no_word_split_witness :
    ("a b" : String).length ≤ 4 ∧
    ∃ w ∈ splitWords ("aaaaaaa bb" : String).data,
      ("aaaaaaa" : String).data = w :=
  ⟨(claim_C7_no_word_split "a b c d e" 4 (by norm_num)).2.2.1 (by decide)
      "a b" (by decide),
   (claim_C7_no_word_split "aaaaaaa bb" 4 (by norm_num)).2.2.2
      "aaaaaaa" (by decide) (by decide)⟩
